import Mathlib

/-!
Verification of the job-board (ATS) detector in `src/main.py`.

Python strings are modelled as `List Char`.  Case folding (`str.lower`,
`re.IGNORECASE`) is modelled with `Char.toLower`, which agrees with Python on
ASCII; all registry patterns and keywords in the program are ASCII.  Python
whitespace (`str.strip`, the regex class `\s`) is modelled by the six ASCII
whitespace characters.  The external collaborators of the pipeline — the HTTP
fetcher, the HTML parser and relative-URL resolution (`urljoin`) — are
parameters of the embedding (`Env`), as the spec treats them as external
collaborators / standard-library services.
-/

namespace JobBoardResolver

/-- ASCII whitespace, the model of Python `str.strip`'s default set and of the
regex class `\s`. -/
def isSpaceCh (c : Char) : Bool :=
  c == ' ' || c == '\t' || c == '\n' || c == '\r' || c == '\x0b' || c == '\x0c'

/-- Python `str.lstrip()`. -/
def lstrip (cs : List Char) : List Char := cs.dropWhile isSpaceCh

/-- Python `str.rstrip(set)`: drop trailing characters satisfying `p`. -/
def rstripBy (p : Char → Bool) (cs : List Char) : List Char :=
  (cs.reverse.dropWhile p).reverse

/-- Python `str.strip()`. -/
def pystrip (cs : List Char) : List Char := rstripBy isSpaceCh (lstrip cs)

/-- Python `str.lower()` (ASCII model). -/
def lowerL (cs : List Char) : List Char := cs.map Char.toLower

/-- Python `str.startswith(needle)` (exact, case-sensitive). -/
def startsWithL : List Char → List Char → Bool
  | _, [] => true
  | [], _ :: _ => false
  | c :: cs, d :: ds => c == d && startsWithL cs ds

/-- Python `needle in hay` (substring containment). -/
def containsSub (needle : List Char) : List Char → Bool
  | [] => startsWithL [] needle
  | c :: t => startsWithL (c :: t) needle || containsSub needle t

/-- `url.lower().startswith(("http://", "https://"))` from
`normalize_url` (src/main.py line 117). -/
def hasSchemeCI (cs : List Char) : Bool :=
  startsWithL (lowerL cs) "http://".data || startsWithL (lowerL cs) "https://".data

/-- `normalize_url` (src/main.py lines 112–119): strip, return "" when empty,
otherwise prefix "https://" unless an http(s) scheme is already present. -/
def normalize_url (url : List Char) : List Char :=
  let url := pystrip url
  if url.isEmpty then []
  else if !(hasSchemeCI url) then "https://".data ++ url
  else url

/-! Basic lemmas about stripping. -/

theorem dropWhile_self_idem (p : Char → Bool) (l : List Char) :
    (l.dropWhile p).dropWhile p = l.dropWhile p := by
  induction l with
  | nil => rfl
  | cons c t ih =>
    by_cases h : p c
    · simp [List.dropWhile_cons, h, ih]
    · simp [List.dropWhile_cons, h]

theorem dropWhile_head_false {p : Char → Bool} {l t : List Char} {c : Char}
    (h : l.dropWhile p = c :: t) : p c = false := by
  induction l with
  | nil => simp [List.dropWhile] at h
  | cons a u ih =>
    by_cases ha : p a
    · rw [List.dropWhile_cons_of_pos ha] at h
      exact ih h
    · rw [List.dropWhile_cons_of_neg ha] at h
      cases h
      exact Bool.eq_false_iff.mpr ha

theorem dropWhile_append_singleton {p : Char → Bool} {c : Char} (hc : p c = false)
    (xs : List Char) : (xs ++ [c]).dropWhile p = xs.dropWhile p ++ [c] := by
  induction xs with
  | nil => simp [List.dropWhile, hc]
  | cons x t ih =>
    by_cases h : p x
    · simp only [List.cons_append, List.dropWhile_cons_of_pos h, ih]
    · simp [List.cons_append, List.dropWhile_cons_of_neg h]

/-- Stripping from the right only removes a suffix: if the head survives the
predicate, it stays in front. -/
theorem rstripBy_cons {p : Char → Bool} {c : Char} (hc : p c = false)
    (t : List Char) : rstripBy p (c :: t) = c :: rstripBy p t := by
  unfold rstripBy
  rw [List.reverse_cons, dropWhile_append_singleton hc, List.reverse_append]
  rfl

/-- Every list is its right-strip followed by the removed tail. -/
theorem rstripBy_append_rest (p : Char → Bool) (y : List Char) :
    ∃ u, y = rstripBy p y ++ u := by
  refine ⟨(y.reverse.takeWhile p).reverse, ?_⟩
  unfold rstripBy
  calc y = y.reverse.reverse := (List.reverse_reverse y).symm
  _ = (y.reverse.takeWhile p ++ y.reverse.dropWhile p).reverse := by
        rw [List.takeWhile_append_dropWhile]
  _ = (y.reverse.dropWhile p).reverse ++ (y.reverse.takeWhile p).reverse := by
        rw [List.reverse_append]

theorem rstripBy_idem (p : Char → Bool) (y : List Char) :
    rstripBy p (rstripBy p y) = rstripBy p y := by
  unfold rstripBy
  rw [List.reverse_reverse, dropWhile_self_idem]

/-- The left strip of an already fully stripped string is trivial. -/
theorem lstrip_pystrip (s : List Char) : lstrip (pystrip s) = pystrip s := by
  cases hy : pystrip s with
  | nil => rfl
  | cons c t =>
    obtain ⟨u, hu⟩ := rstripBy_append_rest isSpaceCh (lstrip s)
    have hy' : rstripBy isSpaceCh (lstrip s) = c :: t := hy
    rw [hy'] at hu
    have hu' : s.dropWhile isSpaceCh = c :: (t ++ u) := by
      simpa [lstrip] using hu
    have hc : isSpaceCh c = false := dropWhile_head_false hu'
    unfold lstrip
    rw [List.dropWhile_cons_of_neg (by simp [hc])]

theorem pystrip_idem (s : List Char) : pystrip (pystrip s) = pystrip s := by
  show rstripBy isSpaceCh (lstrip (pystrip s)) = pystrip s
  rw [lstrip_pystrip]
  show rstripBy isSpaceCh (rstripBy isSpaceCh (lstrip s)) = rstripBy isSpaceCh (lstrip s)
  rw [rstripBy_idem]

/-- Prepending "https://" to a fully stripped nonempty string yields a string
that `pystrip` leaves alone. -/
theorem pystrip_https_append (s : List Char) (h : pystrip s ≠ []) :
    pystrip ("https://".data ++ pystrip s) = "https://".data ++ pystrip s := by
  have hrevne : (pystrip s).reverse ≠ [] := by simpa using h
  obtain ⟨d, u, hdu⟩ := List.exists_cons_of_ne_nil hrevne
  have hd : isSpaceCh d = false := by
    have hrev : (pystrip s).reverse = (lstrip s).reverse.dropWhile isSpaceCh := by
      show (rstripBy isSpaceCh (lstrip s)).reverse = _
      unfold rstripBy
      rw [List.reverse_reverse]
    rw [hdu] at hrev
    exact dropWhile_head_false hrev.symm
  show rstripBy isSpaceCh (lstrip ("https://".data ++ pystrip s)) =
    "https://".data ++ pystrip s
  have h1 : lstrip ("https://".data ++ pystrip s) = "https://".data ++ pystrip s := by
    show List.dropWhile isSpaceCh ("https://".data ++ pystrip s) =
      "https://".data ++ pystrip s
    rw [show "https://".data ++ pystrip s = 'h' :: ("ttps://".data ++ pystrip s) from rfl]
    rw [List.dropWhile_cons_of_neg (by simp [isSpaceCh])]
  rw [h1]
  unfold rstripBy
  rw [List.reverse_append, hdu, List.cons_append,
    List.dropWhile_cons_of_neg (by simp [hd]), ← List.cons_append, ← hdu,
    ← List.reverse_append, List.reverse_reverse]

theorem startsWithL_append_self (a z : List Char) :
    startsWithL (a ++ z) a = true := by
  induction a with
  | nil => cases z <;> rfl
  | cons c t ih => simp [startsWithL, ih]

theorem normalize_url_cases (s : List Char) :
    (pystrip s = [] → normalize_url s = []) ∧
    (pystrip s ≠ [] →
      (hasSchemeCI (pystrip s) = false →
        normalize_url s = "https://".data ++ pystrip s) ∧
      (hasSchemeCI (pystrip s) = true → normalize_url s = pystrip s)) := by
  unfold normalize_url
  constructor
  · intro h
    simp [h]
  · intro h
    constructor <;> intro h2 <;>
      simp [List.isEmpty_iff, h, h2]

/-- C2: the URL normalizer returns "" on empty/whitespace-only input; otherwise
it returns the trimmed input, prefixed with "https://" exactly when the trimmed
input does not start (case-insensitively) with "http://" or "https://", and
unchanged beyond trimming when such a scheme prefix is present. -/
theorem normalize_url_spec (s : List Char) :
    (pystrip s = [] → normalize_url s = []) ∧
    (pystrip s ≠ [] →
      (hasSchemeCI (pystrip s) = false →
        normalize_url s = "https://".data ++ pystrip s) ∧
      (hasSchemeCI (pystrip s) = true → normalize_url s = pystrip s)) :=
  normalize_url_cases s

/-- Witness for C2 at concrete inputs: a whitespace-only string maps to "",
a scheme-less URL gets the "https://" prefix, and a string that already has
a scheme (even uppercase) is only trimmed. -/
theorem normalize_url_spec_witness :
    normalize_url "   ".data = [] ∧
    normalize_url " example.com/x".data = "https://example.com/x".data ∧
    normalize_url "HTTP://x.com ".data = "HTTP://x.com".data := by
  refine ⟨(normalize_url_spec "   ".data).1 (by decide), ?_, ?_⟩
  · have h := ((normalize_url_spec " example.com/x".data).2 (by decide)).1 (by decide)
    rw [h]; decide
  · have h := ((normalize_url_spec "HTTP://x.com ".data).2 (by decide)).2 (by decide)
    rw [h]; decide

/-- C9: the URL normalizer is idempotent. -/
theorem normalize_url_idem (s : List Char) :
    normalize_url (normalize_url s) = normalize_url s := by
  by_cases h0 : pystrip s = []
  · rw [(normalize_url_cases s).1 h0]
    decide
  · by_cases hs : hasSchemeCI (pystrip s) = true
    · have h1 : normalize_url s = pystrip s :=
        ((normalize_url_cases s).2 h0).2 hs
      rw [h1]
      have h2 : pystrip (pystrip s) = pystrip s := pystrip_idem s
      have h3 : pystrip (pystrip s) ≠ [] := by rw [h2]; exact h0
      have := ((normalize_url_cases (pystrip s)).2 h3).2 (by rw [h2]; exact hs)
      rw [this, h2]
    · have hs' : hasSchemeCI (pystrip s) = false := by
        simpa using hs
      have h1 : normalize_url s = "https://".data ++ pystrip s :=
        ((normalize_url_cases s).2 h0).1 hs'
      rw [h1]
      have h2 : pystrip ("https://".data ++ pystrip s) = "https://".data ++ pystrip s :=
        pystrip_https_append s h0
      have h3 : pystrip ("https://".data ++ pystrip s) ≠ [] := by
        rw [h2]; simp
      have hsch : hasSchemeCI (pystrip ("https://".data ++ pystrip s)) = true := by
        rw [h2]
        unfold hasSchemeCI lowerL
        apply Bool.or_eq_true_iff.mpr
        right
        rw [List.map_append]
        show startsWithL ("https://".data ++ (pystrip s).map Char.toLower)
          "https://".data = true
        exact startsWithL_append_self _ _
      have := ((normalize_url_cases ("https://".data ++ pystrip s)).2 h3).2 hsch
      rw [this, h2]

/-! The candidate selector (src/main.py lines 160–179) and the
deduplication loop used before it (src/main.py lines 258–264 and 292–299). -/

/-- A scanning candidate: (vendor, url). -/
abbrev Cand := List Char × List Char

/-- The filter in `pick_best_job_board`:
`"/jobs" in u.lower() or "/careers" in u.lower()`. -/
def qualifiesJC (c : Cand) : Bool :=
  containsSub "/jobs".data (lowerL c.2) || containsSub "/careers".data (lowerL c.2)

/-- `pick_best_job_board` (src/main.py lines 160–179): prefer the first
candidate whose URL contains "/jobs" or "/careers"; otherwise the first
candidate; `None` on the empty list. -/
def pick_best_job_board (candidates : List Cand) : Option Cand :=
  match candidates with
  | [] => none
  | c :: cs =>
    match (c :: cs).filter qualifiesJC with
    | q :: _ => some q
    | [] => some c

/-- The `seen`-set deduplication loop of `analyze_url`
(src/main.py lines 292–299): keep a candidate iff it was not seen before. -/
def dedupeAux (seen : List Cand) : List Cand → List Cand
  | [] => []
  | c :: rest =>
    if c ∈ seen then dedupeAux seen rest
    else c :: dedupeAux (c :: seen) rest

/-- Order-preserving deduplication, as performed inline in `analyze_url`. -/
def dedupe (cs : List Cand) : List Cand := dedupeAux [] cs

/-- The composite dedupe-and-select operation `analyze_url` performs on the
candidate pool (src/main.py lines 292–306). -/
def dedupe_and_select (cs : List Cand) : Option Cand :=
  pick_best_job_board (dedupe cs)

/-- Spec-side characterization of first-occurrence deduplication: keep each
element's first occurrence, deleting its later duplicates. -/
def firstOccurrences : List Cand → List Cand
  | [] => []
  | c :: rest => c :: firstOccurrences (rest.filter (fun x => x != c))
termination_by l => l.length
decreasing_by
  simp only [List.length_cons]
  exact Nat.lt_succ_of_le (List.length_filter_le _ _)

theorem firstOccurrences_nil : firstOccurrences [] = [] := by
  rw [firstOccurrences]

theorem firstOccurrences_cons (c : Cand) (rest : List Cand) :
    firstOccurrences (c :: rest) =
      c :: firstOccurrences (rest.filter (fun x => x != c)) := by
  rw [firstOccurrences]

theorem dedupeAux_eq_firstOccurrences (l : List Cand) :
    ∀ seen, dedupeAux seen l = firstOccurrences (l.filter (fun x => !(decide (x ∈ seen)))) := by
  induction l with
  | nil => intro seen; simp [dedupeAux, firstOccurrences_nil]
  | cons c rest ih =>
    intro seen
    by_cases hc : c ∈ seen
    · rw [dedupeAux, if_pos hc, ih seen, List.filter_cons]
      simp [hc]
    · rw [dedupeAux, if_neg hc, ih (c :: seen), List.filter_cons]
      simp only [hc, Bool.not_false, if_true, decide_eq_false_iff_not, not_false_iff]
      rw [if_pos (by simp [hc]), firstOccurrences_cons]
      congr 1
      rw [List.filter_filter]
      congr 1
      apply List.filter_congr
      intro x _
      by_cases hxc : x = c
      · simp [hxc]
      · simp [hxc, List.mem_cons]

theorem dedupe_eq_firstOccurrences (cs : List Cand) :
    dedupe cs = firstOccurrences cs := by
  rw [dedupe, dedupeAux_eq_firstOccurrences cs []]
  congr 1
  simp

theorem pick_best_eq_find (cs : List Cand) :
    pick_best_job_board cs =
      match cs.find? qualifiesJC with
      | some q => some q
      | none => cs.head? := by
  cases cs with
  | nil => rfl
  | cons c t =>
    rw [pick_best_job_board]
    rw [show (c :: t).find? qualifiesJC = ((c :: t).filter qualifiesJC).head? from
      (List.filter_head? qualifiesJC (c :: t)).symm]
    cases hf : (c :: t).filter qualifiesJC with
    | nil => rfl
    | cons q qs => rfl

/-- C1: dedupe-and-select first deduplicates by the exact (vendor, url) pair
preserving first-occurrence order, then returns the first unique candidate
whose URL (case-insensitively) contains "/jobs" or "/careers"; if none
qualifies it returns the first unique candidate overall; on the empty
candidate list it returns `none`. -/
theorem dedupe_and_select_spec (cs : List Cand) :
    dedupe_and_select cs =
      (match (firstOccurrences cs).find? qualifiesJC with
       | some q => some q
       | none => (firstOccurrences cs).head?) ∧
    dedupe_and_select [] = none := by
  constructor
  · rw [dedupe_and_select, dedupe_eq_firstOccurrences, pick_best_eq_find]
  · rfl

theorem pick_best_mem {cs : List Cand} {c : Cand}
    (h : pick_best_job_board cs = some c) : c ∈ cs := by
  cases cs with
  | nil => simp [pick_best_job_board] at h
  | cons a t =>
    rw [pick_best_job_board] at h
    cases hf : (a :: t).filter qualifiesJC with
    | nil =>
      rw [hf] at h
      injection h with h2
      subst h2
      exact List.mem_cons_self _ _
    | cons q qs =>
      rw [hf] at h
      injection h with h2
      subst h2
      have hq : q ∈ (a :: t).filter qualifiesJC := by
        rw [hf]
        exact List.mem_cons_self _ _
      exact List.mem_of_mem_filter hq

/-- C10: on a non-empty candidate list the selector returns one of the input
candidates, unmodified. -/
theorem pick_best_job_board_mem (cs : List Cand) (h : cs ≠ []) :
    ∃ c, pick_best_job_board cs = some c ∧ c ∈ cs := by
  cases cs with
  | nil => exact absurd rfl h
  | cons a t =>
    cases hp : pick_best_job_board (a :: t) with
    | some c => exact ⟨c, rfl, pick_best_mem hp⟩
    | none =>
      rw [pick_best_job_board] at hp
      cases hf : (a :: t).filter qualifiesJC with
      | nil => rw [hf] at hp; cases hp
      | cons q qs => rw [hf] at hp; cases hp

/-- Witness for C10 at a concrete input. -/
theorem pick_best_job_board_mem_witness :
    ∃ c, pick_best_job_board
        [("x".data, "https://a.com/about".data), ("x".data, "https://a.com/careers/list".data)] =
        some c ∧
      c ∈ [("x".data, "https://a.com/about".data), ("x".data, "https://a.com/careers/list".data)] :=
  pick_best_job_board_mem _ (by decide)

/-! The pattern registry (src/main.py lines 56–106) and the text scanner
(src/main.py lines 136–157).  Every registry entry compiles the same regex
shape `https?://[a-zA-Z0-9.-]*DOMAIN[^\s"\x27<>]*` with `re.IGNORECASE`, so an
entry is embedded as its vendor name together with its literal domain part,
and one executable matcher below implements the shared shape with Python's
leftmost, non-overlapping, greedy `findall` semantics. -/

/-- The regex character class `[a-zA-Z0-9.-]` (the host part). -/
def hostChar (c : Char) : Bool :=
  c.isAlpha || c.isDigit || c == '.' || c == '-'

/-- The regex character class `[^\s"\x27<>]` (the path tail). -/
def tailChar (c : Char) : Bool :=
  !(isSpaceCh c || c == '"' || c == '\'' || c == '<' || c == '>')

/-- Case-insensitive `startswith`, the model of matching a literal under
`re.IGNORECASE` (ASCII folding). -/
def startsWithCI : List Char → List Char → Bool
  | _, [] => true
  | [], _ :: _ => false
  | c :: cs, d :: ds => (c.toLower == d.toLower) && startsWithCI cs ds

/-- Match `https?://` at the start of the text: the branch with `s` is
preferred, exactly as the greedy `s?` behaves. -/
def schemeLen (cs : List Char) : Option Nat :=
  if startsWithCI cs "https://".data then some 8
  else if startsWithCI cs "http://".data then some 7
  else none

/-- Greedy split for `[a-zA-Z0-9.-]*DOMAIN`: the largest `k` not exceeding the
given bound such that the domain literal matches after `k` host characters. -/
def bestHostSplit (dom rest : List Char) : Nat → Option Nat
  | 0 => if startsWithCI rest dom then some 0 else none
  | k + 1 =>
    if startsWithCI (rest.drop (k + 1)) dom then some (k + 1)
    else bestHostSplit dom rest k

/-- Length of the leftmost-greedy match of the registry regex shape for domain
`dom` at the start of `cs`, or `none` when no match starts here. -/
def matchLenAt (dom cs : List Char) : Option Nat :=
  match schemeLen cs with
  | none => none
  | some sl =>
    let rest := cs.drop sl
    match bestHostSplit dom rest ((rest.takeWhile hostChar).length) with
    | none => none
    | some k =>
      let after := rest.drop (k + dom.length)
      some (sl + k + dom.length + (after.takeWhile tailChar).length)

/-- `re.findall` for the registry shape: scan left to right; on a match, emit
it and continue after it (non-overlapping); otherwise advance one character.
The fuel starts at the text length and every match is nonempty, so the fuel
never runs out. -/
def findallAux (dom : List Char) : Nat → List Char → List (List Char)
  | 0, _ => []
  | _ + 1, [] => []
  | fuel + 1, c :: t =>
    match matchLenAt dom (c :: t) with
    | some len => (c :: t).take len :: findallAux dom fuel ((c :: t).drop len)
    | none => findallAux dom fuel t

/-- `pattern.findall(text)` for the registry entry with domain `dom`. -/
def findall (dom text : List Char) : List (List Char) :=
  findallAux dom text.length text

/-- `JOB_BOARD_PATTERNS` (src/main.py lines 56–106): the fixed, ordered
registry, each entry reduced to (vendor, domain literal of its regex). -/
def JOB_BOARD_PATTERNS : List (List Char × List Char) :=
  [("bamboohr".data, "bamboohr.com".data),
   ("greenhouse".data, "greenhouse.io".data),
   ("workable".data, "workable.com".data),
   ("jazzhr".data, "applytojob.com".data),
   ("paycor".data, "paycor.com".data),
   ("trinethire".data, "trinethire.com".data),
   ("indeed".data, "indeed.com".data)]

/-- The strip set of `rstrip(')"\x27.,;>')` in `find_job_boards_in_text`. -/
def stripSetCh (c : Char) : Bool :=
  c == ')' || c == '"' || c == '\'' || c == '.' || c == ',' || c == ';' || c == '>'

/-- `match.strip().rstrip(')"\x27.,;>')` (src/main.py line 147). -/
def cleanMatch (m : List Char) : List Char :=
  rstripBy stripSetCh (pystrip m)

/-- `find_job_boards_in_text` (src/main.py lines 136–149). -/
def find_job_boards_in_text (text : List Char) : List Cand :=
  if text.isEmpty then []
  else
    JOB_BOARD_PATTERNS.flatMap
      (fun vp => (findall vp.2 text).map (fun m => (vp.1, cleanMatch m)))

/-- `find_job_boards_in_html` (src/main.py lines 152–157): delegates to the
text scanner (`html or ""` is the identity on the string model). -/
def find_job_boards_in_html (html : List Char) : List Cand :=
  find_job_boards_in_text html

/-- C3: the scanner emits one (vendor, cleaned-url) candidate per
non-overlapping occurrence of each registry entry's matcher, with the trailing
strip set removed, in registry-iteration order then text-occurrence order
(duplicates allowed); empty text yields the empty sequence, and a text
containing `https://acme.bamboohr.com/jobs/?x=1)` yields exactly the candidate
("bamboohr", "https://acme.bamboohr.com/jobs/?x=1"). -/
theorem find_job_boards_in_text_spec :
    (∀ text, find_job_boards_in_text text =
        JOB_BOARD_PATTERNS.flatMap
          (fun vp => (findall vp.2 text).map (fun m => (vp.1, cleanMatch m)))) ∧
    find_job_boards_in_text [] = [] ∧
    find_job_boards_in_text "Apply: https://acme.bamboohr.com/jobs/?x=1) now".data =
      [("bamboohr".data, "https://acme.bamboohr.com/jobs/?x=1".data)] := by
  refine ⟨?_, by decide, by decide⟩
  intro text
  cases text with
  | nil => decide
  | cons c t => rw [find_job_boards_in_text, if_neg (by simp)]

/-! A model of parsed HTML (BeautifulSoup): a tree of elements and text.
`find_all` traversals are in document (preorder) order, and every node found
by `find_all` on a document has a parent, so traversals pair each node with
its immediate containing node. -/

/-- A parsed HTML node: a text run, or an element with a tag, attributes and
children.  The whole parsed document is an element node (the soup object). -/
inductive Node where
  | text : List Char → Node
  | elem : List Char → List (List Char × List Char) → List Node → Node

/-- Attribute lookup, `tag.get(key)` / `tag[key]`. -/
def attrOf (a : List (List Char × List Char)) (k : List Char) : Option (List Char) :=
  (a.find? (fun p => p.1 == k)).map (fun p => p.2)

mutual

/-- All descendant nodes paired with their immediate containing node, in
document (preorder) order — the traversal underlying `find_all`. -/
def descendants : Node → List (Node × Node)
  | Node.text _ => []
  | Node.elem t a cs => descendantsList (Node.elem t a cs) cs

def descendantsList (parent : Node) : List Node → List (Node × Node)
  | [] => []
  | n :: rest => (n, parent) :: (descendants n ++ descendantsList parent rest)

end

/-- Does this node match `find_all("a", href=True)`? -/
def isAnchorWithHref : Node → Bool
  | Node.elem t a _ => t == "a".data && (attrOf a "href".data).isSome
  | Node.text _ => false

/-- `a["href"]` (meaningful on anchors found with `href=True`). -/
def hrefOf : Node → List Char
  | Node.elem _ a _ => (attrOf a "href".data).getD []
  | Node.text _ => []

/-- `soup.find_all("a", href=True)`, each anchor paired with its parent. -/
def collectAnchors (soup : Node) : List (Node × Node) :=
  (descendants soup).filter (fun np => isAnchorWithHref np.1)

/-- Does this node match `find_all("iframe", src=True)`? -/
def isIframeWithSrc : Node → Bool
  | Node.elem t a _ => t == "iframe".data && (attrOf a "src".data).isSome
  | Node.text _ => false

/-- `iframe.get("src", "")`. -/
def srcOf : Node → List Char
  | Node.elem _ a _ => (attrOf a "src".data).getD []
  | Node.text _ => []

/-- `soup.find_all("iframe", src=True)`, reduced to the `src` values. -/
def findIframeSrcs (soup : Node) : List (List Char) :=
  ((descendants soup).filter (fun np => isIframeWithSrc np.1)).map
    (fun np => srcOf np.1)

mutual

/-- The descendant text runs of a node, in document order. -/
def textNodes : Node → List (List Char)
  | Node.text s => [s]
  | Node.elem _ _ cs => textNodesList cs

def textNodesList : List Node → List (List Char)
  | [] => []
  | n :: rest => textNodes n ++ textNodesList rest

end

/-- `tag.stripped_strings`: each descendant text run stripped, dropping the
ones that become empty. -/
def strippedStrings (n : Node) : List (List Char) :=
  ((textNodes n).map pystrip).filter (fun s => !s.isEmpty)

/-- `tag.get_text(strip=True)`: stripped strings joined with "". -/
def getTextStrip (n : Node) : List Char :=
  (strippedStrings n).flatten

/-- `" ".join(xs)`. -/
def joinSpace : List (List Char) → List Char
  | [] => []
  | [s] => s
  | s :: t :: rest => s ++ (' ' :: joinSpace (t :: rest))

/-- `KEYWORDS = ("apply", "resume", "cv")` (src/main.py line 212). -/
def KEYWORDS : List (List Char) := ["apply".data, "resume".data, "cv".data]

/-- `has_apply_context` (src/main.py lines 214–227): the anchor's own visible
text, or its parent's combined visible text, mentions a keyword. -/
def has_apply_context (anchor parent : Node) : Bool :=
  let text := lowerL (getTextStrip anchor)
  if KEYWORDS.any (fun k => containsSub k text) then true
  else
    KEYWORDS.any (fun k =>
      containsSub k (lowerL (joinSpace (strippedStrings parent))))

/-- `detect_email_with_pdfs` (src/main.py lines 185–230). -/
def detect_email_with_pdfs (soup : Node) : Bool :=
  let anchors := collectAnchors soup
  let job_pdf_links :=
    anchors.filter (fun ap => containsSub ".pdf".data (lowerL (hrefOf ap.1)))
  if job_pdf_links.isEmpty then false
  else
    let mailto_links :=
      anchors.filter (fun ap => startsWithL (lowerL (hrefOf ap.1)) "mailto:".data)
    if mailto_links.isEmpty then false
    else
      let has_apply_mailto :=
        mailto_links.any (fun ap => has_apply_context ap.1 ap.2)
      !job_pdf_links.isEmpty && has_apply_mailto

/-- C6: the detector returns true iff (a) some hyperlink's target contains
".pdf" case-insensitively, and (b) some hyperlink's target begins
case-insensitively with "mailto:" and either its own visible text or its
immediate containing element's combined visible text contains one of the
keywords "apply", "resume", "cv" (case-insensitively). -/
theorem detect_email_with_pdfs_iff (soup : Node) :
    detect_email_with_pdfs soup = true ↔
      ((∃ ap ∈ collectAnchors soup,
          containsSub ".pdf".data (lowerL (hrefOf ap.1)) = true) ∧
       (∃ ap ∈ collectAnchors soup,
          startsWithL (lowerL (hrefOf ap.1)) "mailto:".data = true ∧
          ((∃ k ∈ KEYWORDS, containsSub k (lowerL (getTextStrip ap.1)) = true) ∨
           (∃ k ∈ KEYWORDS,
              containsSub k (lowerL (joinSpace (strippedStrings ap.2))) = true)))) := by
  have hctx : ∀ a p, has_apply_context a p = true ↔
      ((∃ k ∈ KEYWORDS, containsSub k (lowerL (getTextStrip a)) = true) ∨
       (∃ k ∈ KEYWORDS,
          containsSub k (lowerL (joinSpace (strippedStrings p))) = true)) := by
    intro a p
    rw [has_apply_context]
    by_cases h : KEYWORDS.any (fun k => containsSub k (lowerL (getTextStrip a))) = true
    · simp only [h, if_true, true_iff]
      left
      simpa [List.any_eq_true] using h
    · simp only [Bool.not_eq_true] at h
      simp only [h, Bool.false_eq_true, if_false]
      constructor
      · intro h2
        right
        simpa [List.any_eq_true] using h2
      · intro h2
        rcases h2 with h2 | h2
        · exfalso
          have : KEYWORDS.any (fun k => containsSub k (lowerL (getTextStrip a))) = true := by
            simpa [List.any_eq_true] using h2
          rw [h] at this
          exact Bool.false_ne_true this
        · simpa [List.any_eq_true] using h2
  rw [detect_email_with_pdfs]
  by_cases hpdf : (collectAnchors soup).filter
      (fun ap => containsSub ".pdf".data (lowerL (hrefOf ap.1))) = []
  · simp only [hpdf, List.isEmpty_nil, if_true]
    constructor
    · intro h; exact absurd h Bool.false_ne_true
    · rintro ⟨⟨ap, hmem, hap⟩, -⟩
      have : ap ∈ (collectAnchors soup).filter
          (fun ap => containsSub ".pdf".data (lowerL (hrefOf ap.1))) :=
        List.mem_filter.mpr ⟨hmem, hap⟩
      rw [hpdf] at this
      exact absurd this (List.not_mem_nil ap)
  · have hpdfE : ((collectAnchors soup).filter
        (fun ap => containsSub ".pdf".data (lowerL (hrefOf ap.1)))).isEmpty = false := by
      simpa [List.isEmpty_iff] using hpdf
    rw [hpdfE]
    simp only [Bool.false_eq_true, if_false, Bool.not_false, Bool.true_and]
    by_cases hml : (collectAnchors soup).filter
        (fun ap => startsWithL (lowerL (hrefOf ap.1)) "mailto:".data) = []
    · simp only [hml, List.isEmpty_nil, if_true]
      constructor
      · intro h; exact absurd h Bool.false_ne_true
      · rintro ⟨-, ⟨ap, hmem, hap, -⟩⟩
        have : ap ∈ (collectAnchors soup).filter
            (fun ap => startsWithL (lowerL (hrefOf ap.1)) "mailto:".data) :=
          List.mem_filter.mpr ⟨hmem, hap⟩
        rw [hml] at this
        exact absurd this (List.not_mem_nil ap)
    · have hmlE : ((collectAnchors soup).filter
          (fun ap => startsWithL (lowerL (hrefOf ap.1)) "mailto:".data)).isEmpty = false := by
        simpa [List.isEmpty_iff] using hml
      rw [hmlE]
      simp only [Bool.false_eq_true, if_false]
      constructor
      · intro h
        obtain ⟨ap, hmem, hctx2⟩ := List.any_eq_true.mp h
        have hmem2 := List.mem_filter.mp hmem
        refine ⟨?_, ap, hmem2.1, hmem2.2, (hctx ap.1 ap.2).mp hctx2⟩
        obtain ⟨bp, hbp⟩ := List.exists_mem_of_ne_nil _ hpdf
        have hbp2 := List.mem_filter.mp hbp
        exact ⟨bp, hbp2.1, hbp2.2⟩
      · rintro ⟨-, ap, hmem, hml2, hctx2⟩
        apply List.any_eq_true.mpr
        exact ⟨ap, List.mem_filter.mpr ⟨hmem, hml2⟩, (hctx ap.1 ap.2).mpr hctx2⟩

/-! The per-row pipeline `analyze_url` (src/main.py lines 236–313) and the row
loop of `main` (src/main.py lines 319–357).  The HTTP fetcher, the HTML parser
and `urljoin` are external collaborators, so they are parameters of the
embedding. -/

/-- The external collaborators of the pipeline: `fetch_html` (None on any
fetch failure), `BeautifulSoup` parsing, and `urllib.parse.urljoin`. -/
structure Env where
  fetch : List Char → Option (List Char)
  parse : List Char → Node
  urljoin : List Char → List Char → List Char

/-- The iframe scanning loop of `analyze_url` (src/main.py lines 277–290):
for each iframe `src`, scan the resolved URL string, then fetch it and scan
the fetched content when the fetch yields a non-empty page. -/
def frameCandidates (env : Env) (normalized : List Char) (soup : Node) : List Cand :=
  (findIframeSrcs soup).flatMap (fun raw =>
    let src := pystrip raw
    if src.isEmpty then []
    else
      let iframe_src := env.urljoin normalized src
      find_job_boards_in_text iframe_src ++
        (match env.fetch iframe_src with
         | some ih => if ih.isEmpty then [] else find_job_boards_in_html ih
         | none => []))

/-- `analyze_url` (src/main.py lines 236–313), returning
`(job_board_url, board_type, update)`. -/
def analyze_url (env : Env) (url : List Char) : List Char × List Char × List Char :=
  let normalized := normalize_url url
  if normalized.isEmpty then ([], [], [])
  else
    let candidates := find_job_boards_in_text normalized
    match env.fetch normalized with
    | none =>
      if !candidates.isEmpty then
        match pick_best_job_board (dedupe candidates) with
        | some vu => (vu.2, vu.1, [])
        | none => ([], [], [])
      else ([], [], [])
    | some html =>
      let soup := env.parse html
      let candidates := candidates ++ find_job_boards_in_html html
      let candidates := candidates ++ frameCandidates env normalized soup
      let unique_candidates := dedupe candidates
      let update :=
        if detect_email_with_pdfs soup then "email to apply with pdfs".data else []
      match pick_best_job_board unique_candidates with
      | some vu => (vu.2, vu.1, update)
      | none => ([], [], update)

/-! Branch equations for `analyze_url`, used to reason about the pipeline
without re-unfolding the definition in every proof. -/

theorem analyze_url_empty_eq (env : Env) (url : List Char)
    (h1 : (normalize_url url).isEmpty = true) :
    analyze_url env url = ([], [], []) := by
  rw [analyze_url, if_pos h1]

theorem analyze_url_fetch_none_eq (env : Env) (url : List Char)
    (h1 : (normalize_url url).isEmpty = false)
    (h2 : env.fetch (normalize_url url) = none) :
    analyze_url env url =
      (if !(find_job_boards_in_text (normalize_url url)).isEmpty then
        match pick_best_job_board (dedupe (find_job_boards_in_text (normalize_url url))) with
        | some vu => (vu.2, vu.1, [])
        | none => ([], [], [])
      else ([], [], [])) := by
  rw [analyze_url]
  simp only [h1, Bool.false_eq_true, if_false, h2]

theorem analyze_url_fetch_some_eq (env : Env) (url html : List Char)
    (h1 : (normalize_url url).isEmpty = false)
    (h2 : env.fetch (normalize_url url) = some html) :
    analyze_url env url =
      (match pick_best_job_board (dedupe
          (find_job_boards_in_text (normalize_url url) ++ find_job_boards_in_html html ++
            frameCandidates env (normalize_url url) (env.parse html))) with
       | some vu =>
         (vu.2, vu.1,
           if detect_email_with_pdfs (env.parse html) then "email to apply with pdfs".data
           else [])
       | none =>
         ([], [],
           if detect_email_with_pdfs (env.parse html) then "email to apply with pdfs".data
           else [])) := by
  rw [analyze_url]
  simp only [h1, Bool.false_eq_true, if_false, h2]

/-- An output row of `main` (src/main.py lines 349–355). -/
structure OutputRow where
  companyName : List Char
  applyUrl : List Char
  job_board_url : List Char
  board_type : List Char
  update : List Char
deriving DecidableEq

/-- The row loop of `main` (src/main.py lines 333–355): strip both fields,
skip the row when `applyUrl` is empty, otherwise analyze and emit one row. -/
def processRows (env : Env) (rows : List (List Char × List Char)) : List OutputRow :=
  rows.flatMap (fun row =>
    let company := pystrip row.1
    let url := pystrip row.2
    if url.isEmpty then []
    else
      let r := analyze_url env url
      [⟨company, url, r.1, r.2.1, r.2.2⟩])

/-- C8: a row whose applyUrl strips to empty is skipped entirely — it emits no
output row, and the surrounding rows are processed exactly as if the blank row
were absent. -/
theorem processRows_skips_blank_row (env : Env)
    (pre post : List (List Char × List Char)) (row : List Char × List Char)
    (h : pystrip row.2 = []) :
    processRows env (pre ++ row :: post) = processRows env (pre ++ post) := by
  rw [processRows, processRows, List.flatMap_append, List.flatMap_append,
    List.flatMap_cons]
  congr 1
  simp [h]

/-- Witness for C8: a whitespace-only applyUrl between two good rows is
dropped while both neighbours are still processed. -/
theorem processRows_skips_blank_row_witness :
    processRows ⟨fun _ => none, fun _ => Node.text [], fun _ s => s⟩
        ([("a".data, "acme.bamboohr.com".data)] ++
          ("b".data, "   ".data) :: [("c".data, "x.com".data)]) =
      processRows ⟨fun _ => none, fun _ => Node.text [], fun _ s => s⟩
        ([("a".data, "acme.bamboohr.com".data)] ++ [("c".data, "x.com".data)]) :=
  processRows_skips_blank_row _ _ _ _ (by decide)

/-- C5: when the main-page fetch fails, the pipeline falls back to selecting
among the deduplicated direct-match candidates from the URL string and emits
that result with an empty note; with no direct-match candidates it emits
empty vendor, empty URL and empty note. -/
theorem analyze_url_fetch_failure (env : Env) (url : List Char)
    (h1 : normalize_url url ≠ [])
    (h2 : env.fetch (normalize_url url) = none) :
    analyze_url env url =
      (match pick_best_job_board (dedupe (find_job_boards_in_text (normalize_url url))) with
       | some vu => (vu.2, vu.1, ([] : List Char))
       | none => ([], [], [])) := by
  have h1E : (normalize_url url).isEmpty = false := by
    simpa [List.isEmpty_iff] using h1
  rw [analyze_url_fetch_none_eq env url h1E h2]
  by_cases hc : find_job_boards_in_text (normalize_url url) = []
  · simp [hc, dedupe, dedupeAux, pick_best_job_board]
  · have hcE : (find_job_boards_in_text (normalize_url url)).isEmpty = false := by
      simpa [List.isEmpty_iff] using hc
    rw [hcE]
    simp

/-- Witness for C5: a direct bamboohr match survives a failed fetch and is
emitted with an empty note. -/
theorem analyze_url_fetch_failure_witness :
    analyze_url ⟨fun _ => none, fun _ => Node.text [], fun _ s => s⟩
        "acme.bamboohr.com".data =
      ("https://acme.bamboohr.com".data, "bamboohr".data, []) :=
  (analyze_url_fetch_failure ⟨fun _ => none, fun _ => Node.text [], fun _ s => s⟩
    "acme.bamboohr.com".data (by decide) rfl).trans (by decide)

/-- C4: with a successful fetch the pipeline never short-circuits on a direct
URL match: the fetched page is parsed and scanned, and the direct-match
candidates are merged into the same pool as the page and frame candidates
before deduplication (first occurrences) and selection. -/
theorem analyze_url_no_short_circuit (env : Env) (url html : List Char)
    (h1 : normalize_url url ≠ [])
    (h2 : env.fetch (normalize_url url) = some html) :
    analyze_url env url =
      (let pool := find_job_boards_in_text (normalize_url url) ++
          find_job_boards_in_html html ++
          frameCandidates env (normalize_url url) (env.parse html)
       let update :=
         if detect_email_with_pdfs (env.parse html) then "email to apply with pdfs".data
         else ([] : List Char)
       match pick_best_job_board (firstOccurrences pool) with
       | some vu => (vu.2, vu.1, update)
       | none => ([], [], update)) := by
  have h1E : (normalize_url url).isEmpty = false := by
    simpa [List.isEmpty_iff] using h1
  rw [analyze_url_fetch_some_eq env url html h1E h2]
  simp only [dedupe_eq_firstOccurrences]

/-- Witness for C4: the URL itself matches bamboohr directly, the fetch is
still consulted, and the greenhouse candidate found in the fetched page wins
the selection (its URL contains "/jobs") — under a short-circuit the result
would have been the bamboohr direct match. -/
theorem analyze_url_no_short_circuit_witness :
    analyze_url
        ⟨fun s => if s = "https://acme.bamboohr.com".data
            then some "see https://x.greenhouse.io/jobs ok".data else none,
          fun _ => Node.elem [] [] [], fun _ s => s⟩
        "acme.bamboohr.com".data =
      ("https://x.greenhouse.io/jobs".data, "greenhouse".data, []) := by
  rw [analyze_url_no_short_circuit
    ⟨fun s => if s = "https://acme.bamboohr.com".data
        then some "see https://x.greenhouse.io/jobs ok".data else none,
      fun _ => Node.elem [] [] [], fun _ s => s⟩
    "acme.bamboohr.com".data "see https://x.greenhouse.io/jobs ok".data
    (by decide) (by decide)]
  simp only [← dedupe_eq_firstOccurrences]
  decide

/-! Support for C7: every candidate a scan produces has a non-empty vendor
and a non-empty URL, and selection only returns pool members. -/

theorem startsWithCI_head_toLower {c d : Char} {cs ds : List Char}
    (h : startsWithCI (c :: cs) (d :: ds) = true) : c.toLower = d.toLower := by
  rw [startsWithCI, Bool.and_eq_true] at h
  exact beq_iff_eq.mp h.1

theorem matchLenAt_pos_head {dom : List Char} {c : Char} {t : List Char} {len : Nat}
    (h : matchLenAt dom (c :: t) = some len) : 1 ≤ len ∧ c.toLower = 'h' := by
  simp only [matchLenAt] at h
  split at h
  next => cases h
  next sl hs =>
    obtain ⟨hsl1, hsl2⟩ : 1 ≤ sl ∧ c.toLower = 'h' := by
      rw [schemeLen] at hs
      by_cases h8 : startsWithCI (c :: t) "https://".data = true
      · rw [if_pos h8] at hs
        injection hs with hs
        subst hs
        exact ⟨by omega, startsWithCI_head_toLower h8⟩
      · rw [if_neg h8] at hs
        by_cases h7 : startsWithCI (c :: t) "http://".data = true
        · rw [if_pos h7] at hs
          injection hs with hs
          subst hs
          exact ⟨by omega, startsWithCI_head_toLower h7⟩
        · rw [if_neg h7] at hs
          cases hs
    split at h
    next => cases h
    next k hb =>
      injection h with h
      exact ⟨by omega, hsl2⟩

theorem findallAux_mem_head {dom m : List Char} :
    ∀ {fuel : Nat} {cs : List Char}, m ∈ findallAux dom fuel cs →
      ∃ c rest, m = c :: rest ∧ c.toLower = 'h' := by
  intro fuel
  induction fuel with
  | zero => intro cs h; rw [findallAux] at h; exact absurd h (List.not_mem_nil m)
  | succ f ih =>
    intro cs h
    cases cs with
    | nil => rw [findallAux] at h; exact absurd h (List.not_mem_nil m)
    | cons c t =>
      rw [findallAux] at h
      cases hm : matchLenAt dom (c :: t) with
      | none => rw [hm] at h; exact ih h
      | some len =>
        rw [hm] at h
        rcases List.mem_cons.mp h with h1 | h1
        · obtain ⟨hlen, hc⟩ := matchLenAt_pos_head hm
          refine ⟨c, t.take (len - 1), ?_, hc⟩
          rw [h1]
          cases len with
          | zero => omega
          | succ l => simp [List.take_cons]
        · exact ih h1

theorem toLower_h_not_space_not_strip {c : Char} (h : c.toLower = 'h') :
    isSpaceCh c = false ∧ stripSetCh c = false := by
  constructor
  · by_contra hs
    simp only [Bool.not_eq_false] at hs
    have : c = ' ' ∨ c = '\t' ∨ c = '\n' ∨ c = '\r' ∨ c = '\x0b' ∨ c = '\x0c' := by
      simpa [isSpaceCh, or_assoc] using hs
    rcases this with h1 | h1 | h1 | h1 | h1 | h1 <;> subst h1 <;>
      exact absurd h (by decide)
  · by_contra hs
    simp only [Bool.not_eq_false] at hs
    have : c = ')' ∨ c = '"' ∨ c = '\'' ∨ c = '.' ∨ c = ',' ∨ c = ';' ∨ c = '>' := by
      simpa [stripSetCh, or_assoc] using hs
    rcases this with h1 | h1 | h1 | h1 | h1 | h1 | h1 <;> subst h1 <;>
      exact absurd h (by decide)

theorem cleanMatch_cons_ne_nil {c : Char} (rest : List Char)
    (h1 : isSpaceCh c = false) (h2 : stripSetCh c = false) :
    cleanMatch (c :: rest) ≠ [] := by
  rw [cleanMatch]
  have hp : pystrip (c :: rest) = c :: rstripBy isSpaceCh rest := by
    show rstripBy isSpaceCh (lstrip (c :: rest)) = c :: rstripBy isSpaceCh rest
    rw [show lstrip (c :: rest) = c :: rest from by
      unfold lstrip
      exact List.dropWhile_cons_of_neg (by simp [h1])]
    exact rstripBy_cons h1 rest
  rw [hp, rstripBy_cons h2]
  simp

theorem find_job_boards_cand_ne_nil {v u text : List Char}
    (h : (v, u) ∈ find_job_boards_in_text text) : v ≠ [] ∧ u ≠ [] := by
  rw [find_job_boards_in_text] at h
  by_cases he : text.isEmpty
  · rw [if_pos he] at h
    exact absurd h (List.not_mem_nil _)
  · rw [if_neg he] at h
    obtain ⟨vp, hvp, hm⟩ := List.mem_flatMap.mp h
    obtain ⟨m, hmem, heq⟩ := List.mem_map.mp hm
    have hv : vp.1 = v := congrArg Prod.fst heq
    have hu : cleanMatch m = u := congrArg Prod.snd heq
    constructor
    · rw [← hv]
      revert hvp
      exact fun hvp => (by decide : ∀ x ∈ JOB_BOARD_PATTERNS, x.1 ≠ []) vp hvp
    · rw [← hu]
      obtain ⟨c, rest, hcr, hch⟩ := findallAux_mem_head hmem
      obtain ⟨hs1, hs2⟩ := toLower_h_not_space_not_strip hch
      rw [hcr]
      exact cleanMatch_cons_ne_nil rest hs1 hs2

theorem mem_of_mem_dedupeAux {x : Cand} {l : List Cand} :
    ∀ {seen : List Cand}, x ∈ dedupeAux seen l → x ∈ l := by
  induction l with
  | nil => intro seen h; rw [dedupeAux] at h; exact absurd h (List.not_mem_nil x)
  | cons c rest ih =>
    intro seen h
    rw [dedupeAux] at h
    by_cases hc : c ∈ seen
    · rw [if_pos hc] at h
      exact List.mem_cons_of_mem c (ih h)
    · rw [if_neg hc] at h
      rcases List.mem_cons.mp h with h1 | h1
      · rw [h1]; exact List.mem_cons_self c rest
      · exact List.mem_cons_of_mem c (ih h1)

theorem frameCandidates_mem {env : Env} {n : List Char} {soup : Node} {x : Cand}
    (h : x ∈ frameCandidates env n soup) : ∃ t, x ∈ find_job_boards_in_text t := by
  rw [frameCandidates] at h
  obtain ⟨raw, hraw, hx⟩ := List.mem_flatMap.mp h
  by_cases he : (pystrip raw).isEmpty
  · rw [if_pos he] at hx
    exact absurd hx (List.not_mem_nil x)
  · rw [if_neg he] at hx
    rcases List.mem_append.mp hx with h1 | h1
    · exact ⟨_, h1⟩
    · cases hf : env.fetch (env.urljoin n (pystrip raw)) with
      | none => rw [hf] at h1; exact absurd h1 (List.not_mem_nil x)
      | some ih =>
        rw [hf] at h1
        have h2 : x ∈ (if ih.isEmpty then [] else find_job_boards_in_html ih) := h1
        by_cases hie : ih.isEmpty
        · rw [if_pos hie] at h2
          exact absurd h2 (List.not_mem_nil x)
        · rw [if_neg hie] at h2
          exact ⟨ih, h2⟩

/-- Every component of `analyze_url`'s result pair is empty exactly when the
other is: selection only ever returns scan-produced candidates, whose vendor
and URL are both non-empty. -/
theorem analyze_url_vendor_iff_url (env : Env) (url : List Char) :
    (analyze_url env url).2.1 = [] ↔ (analyze_url env url).1 = [] := by
  by_cases h0 : (normalize_url url).isEmpty
  · rw [analyze_url_empty_eq env url h0]
  · have h0E : (normalize_url url).isEmpty = false := by simpa using h0
    cases hf : env.fetch (normalize_url url) with
    | none =>
      rw [analyze_url_fetch_none_eq env url h0E hf]
      by_cases hc : (find_job_boards_in_text (normalize_url url)).isEmpty
      · rw [hc]; simp
      · have hcE : (find_job_boards_in_text (normalize_url url)).isEmpty = false := by
          simpa using hc
        rw [hcE]
        simp only [Bool.not_false, if_true]
        cases hp : pick_best_job_board (dedupe (find_job_boards_in_text (normalize_url url))) with
        | none => simp
        | some vu =>
          have hvu : vu ∈ find_job_boards_in_text (normalize_url url) :=
            mem_of_mem_dedupeAux (pick_best_mem hp)
          obtain ⟨hv, hu⟩ := find_job_boards_cand_ne_nil (v := vu.1) (u := vu.2)
            (by simpa using hvu)
          simp [hv, hu]
    | some html =>
      rw [analyze_url_fetch_some_eq env url html h0E hf]
      cases hp : pick_best_job_board (dedupe
          (find_job_boards_in_text (normalize_url url) ++ find_job_boards_in_html html ++
            frameCandidates env (normalize_url url) (env.parse html))) with
      | none => simp
      | some vu =>
        have hvu : vu ∈ find_job_boards_in_text (normalize_url url) ++
            find_job_boards_in_html html ++
            frameCandidates env (normalize_url url) (env.parse html) :=
          mem_of_mem_dedupeAux (pick_best_mem hp)
        have hne : vu.1 ≠ [] ∧ vu.2 ≠ [] := by
          rcases List.mem_append.mp hvu with h1 | h1
          · rcases List.mem_append.mp h1 with h2 | h2
            · exact find_job_boards_cand_ne_nil (by simpa using h2)
            · exact find_job_boards_cand_ne_nil (by simpa using h2)
          · obtain ⟨t, ht⟩ := frameCandidates_mem h1
            exact find_job_boards_cand_ne_nil (by simpa using ht)
        simp [hne.1, hne.2]

/-- C7: in every emitted output row the vendor (board_type) field is empty
exactly when the job-board URL field is empty. -/
theorem processRows_vendor_iff_url (env : Env) (rows : List (List Char × List Char))
    (r : OutputRow) (h : r ∈ processRows env rows) :
    r.board_type = [] ↔ r.job_board_url = [] := by
  rw [processRows] at h
  obtain ⟨row, hrow, hr⟩ := List.mem_flatMap.mp h
  by_cases he : (pystrip row.2).isEmpty
  · rw [if_pos he] at hr
    exact absurd hr (List.not_mem_nil r)
  · rw [if_neg he] at hr
    rcases List.mem_cons.mp hr with h1 | h1
    · rw [h1]
      exact analyze_url_vendor_iff_url env (pystrip row.2)
    · exact absurd h1 (List.not_mem_nil r)

/-- Witness for C7 at a concrete emitted row. -/
theorem processRows_vendor_iff_url_witness :
    (OutputRow.mk "c".data "acme.bamboohr.com".data
        "https://acme.bamboohr.com".data "bamboohr".data []).board_type = [] ↔
      (OutputRow.mk "c".data "acme.bamboohr.com".data
        "https://acme.bamboohr.com".data "bamboohr".data []).job_board_url = [] :=
  processRows_vendor_iff_url ⟨fun _ => none, fun _ => Node.text [], fun _ s => s⟩
    [("c".data, "acme.bamboohr.com".data)] _ (by decide)

end JobBoardResolver
